import Mathlib

/-!
# Verification of the NuclearFluoro segmentation core

Shallow embedding of `src/segmentation.py` (`process_image`) and of the
library routines it calls with the exact default parameters used at the
call sites:

* `np.median` over all pixels;
* `np.clip(img.astype(float) - bg, 0, None)`;
* `skimage.filters.threshold_otsu` applied to `img - bg` (with the
  constant-image fallback that returns the single value);
* `skimage.morphology.remove_small_objects` with its default
  `connectivity=1` (4-connectivity in 2D);
* `scipy.ndimage.binary_fill_holes` with its default structuring element
  (4-connectivity in 2D), realised as iterated dilation of the background
  from outside the border;
* `skimage.measure.label` with its default full connectivity
  (8-connectivity in 2D), labels numbered 1.. in raster first-encounter
  order;
* `skimage.measure.regionprops_table` with properties
  `label, area, mean_intensity`, rows in ascending label order, followed by
  the pandas column assignments for `integrated_intensity` and `image_id`;
* `pathlib.Path.stem`.

Pixel intensities are modelled as rationals (exact arithmetic in place of
IEEE floats).  A 2D image is a height, a width and a pixel function.
-/

namespace NuclearFluoro

/-- A pixel position: (row index, column index). -/
abbrev Pos : Type := ℕ × ℕ

/-- A 2D image: height, width and pixel intensities (values of `pix`
outside the `h × w` grid are irrelevant). -/
structure Img where
  h : ℕ
  w : ℕ
  pix : ℕ → ℕ → ℚ

/-- The in-bounds grid positions of an image. -/
def Img.cells (img : Img) : Finset Pos :=
  Finset.range img.h ×ˢ Finset.range img.w

/-- All pixel values in row-major (raster) order, as `ndarray.ravel()`
would enumerate them. -/
def Img.pixList (img : Img) : List ℚ :=
  ((List.range img.h).map (fun i => (List.range img.w).map (fun j => img.pix i j))).flatten

/-- `np.median` on a nonempty 1D collection: sort, take the middle element
(odd length) or the mean of the two middle elements (even length).
(`np.median` of an empty array is NaN; the pipeline never reaches this
function on an empty image, see `process_image`.) -/
def npMedian (l : List ℚ) : ℚ :=
  let s := List.insertionSort (· ≤ ·) l
  let n := l.length
  if n % 2 = 1 then s.getD (n / 2) 0
  else (s.getD (n / 2 - 1) 0 + s.getD (n / 2) 0) / 2

/-- `bg = np.median(img)` in `process_image`. -/
def backgroundLevel (img : Img) : ℚ := npMedian img.pixList

/-- `fl_corr = np.clip(img.astype(float) - bg, 0, None)` in
`process_image`: background-subtracted image clipped at zero. -/
def fl_corr (img : Img) : ℕ → ℕ → ℚ :=
  fun i j => max (img.pix i j - backgroundLevel img) 0

/-- Index of the histogram bin a value falls into: `np.histogram` with
`nb` equal-width bins over `[mn, mx]`; the rightmost bin is closed, which
the clamp to `nb - 1` realises. -/
def binIdx (mn bw : ℚ) (nb : ℕ) (v : ℚ) : ℕ :=
  min (Int.toNat ⌊(v - mn) / bw⌋) (nb - 1)

/-- `skimage.filters.threshold_otsu` on a 1D collection of (float) values.
If all values are equal it returns that single value (the library's
constant-image fallback).  Otherwise it builds a 256-bin histogram over
`[min, max]`, forms cumulative class weights and class means from the bin
centers, and returns the bin center maximising the between-class variance
(first maximiser, as `np.argmax` does).  With exact rationals, division by
a zero class weight yields 0 where NumPy would produce NaN; no theorem
in this file evaluates or reasons about this non-constant branch beyond
its being a function of the input values. -/
def threshold_otsu (vals : List ℚ) : ℚ :=
  match vals with
  | [] => 0
  | v0 :: _ =>
    if vals.all (fun v => decide (v = v0)) then v0
    else
      let mn := vals.foldl min v0
      let mx := vals.foldl max v0
      let nb : ℕ := 256
      let bw := (mx - mn) / (nb : ℚ)
      let counts : ℕ → ℚ := fun k =>
        ((vals.filter (fun v => decide (binIdx mn bw nb v = k))).length : ℚ)
      let center : ℕ → ℚ := fun k => mn + bw * (k : ℚ) + bw / 2
      let w1 : ℕ → ℚ := fun k => ∑ i ∈ Finset.range (k + 1), counts i
      let w2 : ℕ → ℚ := fun k => ∑ i ∈ Finset.Icc k (nb - 1), counts i
      let m1 : ℕ → ℚ := fun k => (∑ i ∈ Finset.range (k + 1), counts i * center i) / w1 k
      let m2 : ℕ → ℚ := fun k => (∑ i ∈ Finset.Icc k (nb - 1), counts i * center i) / w2 k
      let var : ℕ → ℚ := fun k => w1 k * w2 (k + 1) * (m1 k - m2 (k + 1)) ^ 2
      let idx := (List.range (nb - 1)).foldl
        (fun best k => if var best < var k then k else best) 0
      center idx

/-- The values of `img - bg`, the background-subtracted raw image that
`threshold_otsu` is applied to in `process_image` (allowed to be
negative: no clipping here). -/
def subValues (img : Img) : List ℚ :=
  img.pixList.map (fun v => v - backgroundLevel img)

/-- `thresh = filters.threshold_otsu(img - bg)` in `process_image`. -/
def otsuThreshold (img : Img) : ℚ := threshold_otsu (subValues img)

/-- `nuc_mask = img > thresh` in `process_image`: the foreground mask
before morphological cleanup, as the set of in-bounds pixels whose *raw*
value strictly exceeds the threshold. -/
def preMask (img : Img) : Finset Pos :=
  img.cells.filter (fun p => otsuThreshold img < img.pix p.1 p.2)

/-- 4-connectivity (`scipy.ndimage.generate_binary_structure(2, 1)`, the
cross-shaped structuring element): two distinct positions are neighbors
when they differ by one step along exactly one axis. -/
def adj4 (p q : Pos) : Prop :=
  Nat.dist p.1 q.1 + Nat.dist p.2 q.2 = 1

/-- 8-connectivity (`scipy.ndimage.generate_binary_structure(2, 2)`, the
full 3×3 structuring element): two distinct positions are neighbors when
they differ by at most one step along each axis. -/
def adj8 (p q : Pos) : Prop :=
  p ≠ q ∧ Nat.dist p.1 q.1 ≤ 1 ∧ Nat.dist p.2 q.2 ≤ 1

instance (p q : Pos) : Decidable (adj4 p q) := by unfold adj4; infer_instance

instance (p q : Pos) : Decidable (adj8 p q) := by unfold adj8; infer_instance

theorem adj4_symm {p q : Pos} (h : adj4 p q) : adj4 q p := by
  unfold adj4 Nat.dist at h ⊢; omega

theorem adj8_symm {p q : Pos} (h : adj8 p q) : adj8 q p := by
  obtain ⟨h1, h2, h3⟩ := h
  exact ⟨fun e => h1 e.symm, by rwa [Nat.dist_comm], by rwa [Nat.dist_comm]⟩

section Connectivity

variable (adj : Pos → Pos → Prop) [DecidableRel adj]

/-- One step of flood fill: add every position of `cells` adjacent to the
current set.  This is one masked binary dilation (the primitive that both
`scipy.ndimage.label`-style component extraction and
`binary_fill_holes` iterate to convergence). -/
def grow (cells s : Finset Pos) : Finset Pos :=
  s ∪ cells.filter (fun q => ∃ r ∈ s, adj r q)

/-- Flood fill iterated to convergence: `cells.card` dilation steps always
suffice to reach the fixed point. -/
def reach (cells s : Finset Pos) : Finset Pos :=
  (grow adj cells)^[cells.card] s

/-- The connected component of `p` inside the set `cells`, under the
adjacency relation `adj` (meaningful when `p ∈ cells`). -/
def component (cells : Finset Pos) (p : Pos) : Finset Pos :=
  reach adj cells {p}

theorem subset_grow (cells s : Finset Pos) : s ⊆ grow adj cells s :=
  Finset.subset_union_left

theorem grow_subset (cells s : Finset Pos) : grow adj cells s ⊆ s ∪ cells :=
  Finset.union_subset_union (le_refl s) (Finset.filter_subset _ _)

theorem iterate_grow_subset (cells s : Finset Pos) (hs : s ⊆ cells) :
    ∀ n, (grow adj cells)^[n] s ⊆ cells := by
  intro n
  induction n with
  | zero => simpa using hs
  | succ n ih =>

    rw [Function.iterate_succ_apply']
    exact (grow_subset adj cells _).trans (Finset.union_subset ih (Finset.Subset.refl cells))

theorem iterate_grow_mono (cells s : Finset Pos) (n : ℕ) :
    (grow adj cells)^[n] s ⊆ (grow adj cells)^[n + 1] s := by
  rw [Function.iterate_succ_apply']
  exact subset_grow adj cells _

theorem subset_iterate_grow (cells s : Finset Pos) (n : ℕ) :
    s ⊆ (grow adj cells)^[n] s := by
  induction n with
  | zero => simp
  | succ n ih => exact ih.trans (iterate_grow_mono adj cells s n)

theorem iterate_grow_stable (cells s : Finset Pos) (k : ℕ)
    (hk : grow adj cells ((grow adj cells)^[k] s) = (grow adj cells)^[k] s) :
    ∀ m, (grow adj cells)^[k + m] s = (grow adj cells)^[k] s := by
  intro m
  induction m with
  | zero => rfl
  | succ m ih =>
    rw [← Nat.add_assoc, Function.iterate_succ_apply', ih, hk]

theorem iterate_grow_card (cells s : Finset Pos) (n : ℕ)
    (h : ∀ k < n, grow adj cells ((grow adj cells)^[k] s) ≠ (grow adj cells)^[k] s) :
    s.card + n ≤ ((grow adj cells)^[n] s).card := by
  induction n with
  | zero => simp
  | succ n ih =>
    have hne := h n (Nat.lt_succ_self n)
    have hlt : ((grow adj cells)^[n] s).card < ((grow adj cells)^[n + 1] s).card := by
      apply Finset.card_lt_card
      rw [Function.iterate_succ_apply']
      rw [Finset.ssubset_iff_subset_ne]
      exact ⟨subset_grow adj cells _, fun e => hne e.symm⟩
    have := ih (fun k hk => h k (hk.trans (Nat.lt_succ_self n)))
    omega

/-- The flood fill is a fixed point of its own step after `cells.card`
iterations. -/
theorem grow_reach (cells s : Finset Pos) (hs : s ⊆ cells) :
    grow adj cells (reach adj cells s) = reach adj cells s := by
  by_cases hemp : s = ∅
  · subst hemp
    have hfix : grow adj cells (∅ : Finset Pos) = ∅ := by
      simp [grow]
    have : ∀ n, (grow adj cells)^[n] (∅ : Finset Pos) = ∅ := by
      intro n
      induction n with
      | zero => rfl
      | succ n ih => rw [Function.iterate_succ_apply', ih, hfix]
    rw [reach, this cells.card]
    exact hfix
  · -- some step before `cells.card` must already be a fixed point
    by_cases hall : ∀ k < cells.card, grow adj cells ((grow adj cells)^[k] s)
        ≠ (grow adj cells)^[k] s
    · exfalso
      have hbig := iterate_grow_card adj cells s cells.card hall
      have hcard : 1 ≤ s.card := Finset.card_pos.mpr (Finset.nonempty_iff_ne_empty.mpr hemp)
      have hsub := iterate_grow_subset adj cells s hs cells.card
      have := Finset.card_le_card hsub
      omega
    · push_neg at hall
      obtain ⟨k, hk, hfix⟩ := hall
      have hstab := iterate_grow_stable adj cells s k hfix
      have h1 : (grow adj cells)^[cells.card] s = (grow adj cells)^[k] s := by
        have := hstab (cells.card - k)
        rwa [Nat.add_sub_cancel' (le_of_lt hk)] at this
      rw [reach, h1, hfix]

/-- Flood fill stays inside `cells`. -/
theorem reach_subset (cells s : Finset Pos) (hs : s ⊆ cells) :
    reach adj cells s ⊆ cells :=
  iterate_grow_subset adj cells s hs cells.card

/-- The seed is contained in its flood fill. -/
theorem subset_reach (cells s : Finset Pos) : s ⊆ reach adj cells s :=
  subset_iterate_grow adj cells s cells.card

/-- The flood fill is closed under adjacency into `cells`. -/
theorem reach_closed (cells s : Finset Pos) (hs : s ⊆ cells) {r q : Pos}
    (hr : r ∈ reach adj cells s) (hq : q ∈ cells) (hadj : adj r q) :
    q ∈ reach adj cells s := by
  have := grow_reach adj cells s hs
  rw [← this, grow, Finset.mem_union]
  exact Or.inr (Finset.mem_filter.mpr ⟨hq, r, hr, hadj⟩)

/-- The flood fill is the least adjacency-closed superset of the seed. -/
theorem reach_minimal (cells s T : Finset Pos) (hsT : s ⊆ T)
    (hT : ∀ r ∈ T, ∀ q ∈ cells, adj r q → q ∈ T) :
    reach adj cells s ⊆ T := by
  have : ∀ n, (grow adj cells)^[n] s ⊆ T := by
    intro n
    induction n with
    | zero => simpa using hsT
    | succ n ih =>
      rw [Function.iterate_succ_apply']
      intro q hq
      rw [grow, Finset.mem_union] at hq
      rcases hq with hq | hq
      · exact ih hq
      · obtain ⟨hqc, r, hr, hadj⟩ := Finset.mem_filter.mp hq
        exact hT r (ih hr) q hqc hadj
  exact this cells.card

theorem mem_component_self (cells : Finset Pos) (p : Pos) :
    p ∈ component adj cells p :=
  subset_reach adj cells {p} (Finset.mem_singleton_self p)

theorem component_subset_cells (cells : Finset Pos) {p : Pos} (hp : p ∈ cells) :
    component adj cells p ⊆ cells :=
  reach_subset adj cells {p} (Finset.singleton_subset_iff.mpr hp)

/-- If `q` lies in the component of `p`, the component of `q` is contained
in the component of `p`. -/
theorem component_subset_of_mem (cells : Finset Pos) {p q : Pos} (hp : p ∈ cells)
    (hq : q ∈ component adj cells p) :
    component adj cells q ⊆ component adj cells p :=
  reach_minimal adj cells {q} (component adj cells p)
    (Finset.singleton_subset_iff.mpr hq)
    (fun r hr s hs hadj =>
      reach_closed adj cells {p} (Finset.singleton_subset_iff.mpr hp) hr hs hadj)

/-- Membership in components is symmetric when the adjacency relation is. -/
theorem mem_component_symm (hsymm : ∀ a b : Pos, adj a b → adj b a)
    (cells : Finset Pos) {p q : Pos} (hp : p ∈ cells)
    (hq : q ∈ component adj cells p) :
    p ∈ component adj cells q := by
  have key : ∀ n, ∀ r, r ∈ (grow adj cells)^[n] ({p} : Finset Pos) →
      p ∈ component adj cells r := by
    intro n
    induction n with
    | zero =>
      intro r hr
      rw [Function.iterate_zero_apply, Finset.mem_singleton] at hr
      subst hr
      exact mem_component_self adj cells r
    | succ n ih =>
      intro r hr
      rw [Function.iterate_succ_apply', grow, Finset.mem_union] at hr
      rcases hr with hr | hr
      · exact ih r hr
      · obtain ⟨hrc, t, ht, hadj⟩ := Finset.mem_filter.mp hr
        have htc : t ∈ cells :=
          iterate_grow_subset adj cells {p} (Finset.singleton_subset_iff.mpr hp) n ht
        have htr : t ∈ component adj cells r :=
          reach_closed adj cells {r} (Finset.singleton_subset_iff.mpr hrc)
            (mem_component_self adj cells r) htc (hsymm t r hadj)
        exact component_subset_of_mem adj cells hrc htr (ih t ht)
  exact key cells.card q hq

/-- Components are equivalence classes: a member's component coincides with
the whole component. -/
theorem component_eq_of_mem (hsymm : ∀ a b : Pos, adj a b → adj b a)
    (cells : Finset Pos) {p q : Pos} (hp : p ∈ cells)
    (hq : q ∈ component adj cells p) :
    component adj cells p = component adj cells q := by
  have hqc : q ∈ cells := component_subset_cells adj cells hp hq
  apply Finset.Subset.antisymm
  · exact component_subset_of_mem adj cells hqc
      (mem_component_symm adj hsymm cells hp hq)
  · exact component_subset_of_mem adj cells hp hq

/-- Flood fill from a set of seeds covers exactly the union of the seeds'
components. -/
theorem mem_reach_iff (cells seeds : Finset Pos) (hs : seeds ⊆ cells) (p : Pos) :
    p ∈ reach adj cells seeds ↔ ∃ b ∈ seeds, p ∈ component adj cells b := by
  constructor
  · intro hp
    have hT := reach_minimal adj cells seeds
      (cells.filter (fun q => ∃ b ∈ seeds, q ∈ component adj cells b))
      (fun b hb => Finset.mem_filter.mpr ⟨hs hb, b, hb, mem_component_self adj cells b⟩)
      (fun r hr q hq hadj => by
        obtain ⟨hrc, b, hb, hrb⟩ := Finset.mem_filter.mp hr
        exact Finset.mem_filter.mpr ⟨hq, b, hb,
          reach_closed adj cells {b} (Finset.singleton_subset_iff.mpr (hs hb)) hrb hq hadj⟩)
    obtain ⟨-, b, hb, hpb⟩ := Finset.mem_filter.mp (hT hp)
    exact ⟨b, hb, hpb⟩
  · rintro ⟨b, hb, hpb⟩
    have : component adj cells b ⊆ reach adj cells seeds :=
      reach_minimal adj cells {b} (reach adj cells seeds)
        (Finset.singleton_subset_iff.mpr (subset_reach adj cells seeds hb))
        (fun r hr q hq hadj => reach_closed adj cells seeds hs hr hq hadj)
    exact this hpb

end Connectivity

/-- `morphology.remove_small_objects(nuc_mask, min_size)` with the
library's default `connectivity=1` (4-connectivity): a true pixel is kept
iff its 4-connected component within the mask has at least `min_size`
pixels; components with fewer pixels are cleared.  `min_size` is an
integer (the library performs no sign validation: with a negative
`min_size`, `component_sizes < min_size` is everywhere false and nothing
is removed). -/
def remove_small_objects (m : Finset Pos) (min_size : ℤ) : Finset Pos :=
  m.filter (fun p => min_size ≤ ((component adj4 m p).card : ℤ))

/-- Whether a position lies on the image border. -/
def isBorder (img : Img) (p : Pos) : Prop :=
  p.1 = 0 ∨ p.2 = 0 ∨ p.1 + 1 = img.h ∨ p.2 + 1 = img.w

instance (img : Img) (p : Pos) : Decidable (isBorder img p) := by
  unfold isBorder; infer_instance

/-- `ndimage.binary_fill_holes(nuc_mask)` with the default cross-shaped
structuring element (4-connectivity): the library iterates a masked binary
dilation of the background, seeded from outside the array
(`border_value=1`), to convergence; a pixel of the output is background
iff it is background connected (through background, 4-connectivity) to the
image border.  Everything else — the mask plus its enclosed holes — is
foreground. -/
def binary_fill_holes (img : Img) (m : Finset Pos) : Finset Pos :=
  img.cells \ reach adj4 (img.cells \ m) ((img.cells \ m).filter (fun p => isBorder img p))

/-- Row-major (raster) index of a position, the scan order of
`skimage.measure.label`. -/
def enc (img : Img) (p : Pos) : ℕ := p.1 * img.w + p.2

/-- The raster index of the first-encountered (raster-least) pixel of the
8-connected component of `p` within the mask. -/
def repOf (img : Img) (m : Finset Pos) (p : Pos) : ℕ :=
  (((component adj8 m p).image (enc img)).min).getD 0

/-- The set of component representatives (raster-least indices), one per
8-connected component of the mask. -/
def repSet (img : Img) (m : Finset Pos) : Finset ℕ := m.image (repOf img m)

/-- `measure.label(nuc_mask)` with the library default connectivity
(`input.ndim = 2`, i.e. 8-connectivity): background pixels get 0, and each
8-connected component of the mask gets the positive integer recording its
rank in the raster first-encounter order of the components — so labels are
`1..k` with no gaps, deterministically. -/
def label (img : Img) (m : Finset Pos) (p : Pos) : ℕ :=
  if p ∈ m then ((repSet img m).filter (fun r => r ≤ repOf img m p)).card else 0

/-- One row of the measurement table
(`regionprops_table(..., properties=("label", "area", "mean_intensity"))`
plus the two pandas-assigned columns). -/
structure Row where
  label : ℕ
  area : ℕ
  mean_intensity : ℚ
  integrated_intensity : ℚ
  image_id : String
deriving DecidableEq, Repr

/-- The pixels carrying label `l` in the label image of mask `m`. -/
def regionPixels (img : Img) (m : Finset Pos) (l : ℕ) : Finset Pos :=
  m.filter (fun p => label img m p = l)

/-- `measure.regionprops_table(label_img, intensity_image=fl_corr, ...)`
followed by
`df["integrated_intensity"] = df["area"] * df["mean_intensity"]` and
`df["image_id"] = image_id`: one row per positive label present, in
ascending label order; `area` is the pixel count of the region,
`mean_intensity` the mean of the corrected image over the region,
`integrated_intensity` the product of the `area` and `mean_intensity`
columns, `image_id` the constant broadcast string. -/
def regionprops_table (img : Img) (m : Finset Pos) (image_id : String) : List Row :=
  ((m.image (label img m)).sort (· ≤ ·)).map (fun l =>
    let px := regionPixels img m l
    let area := px.card
    let mean := (∑ p ∈ px, fl_corr img p.1 p.2) / (area : ℚ)
    { label := l, area := area, mean_intensity := mean,
      integrated_intensity := (area : ℚ) * mean, image_id := image_id })

/-- Split a character list at every occurrence of `c` (the semantics of
`str.split(c)` at character level). -/
def splitOnChar (c : Char) : List Char → List (List Char)
  | [] => [[]]
  | a :: rest =>
    let r := splitOnChar c rest
    if a = c then [] :: r
    else (a :: r.headD []) :: r.tail

/-- `pathlib.PurePath.name`: the final component of a POSIX path (modelled
for the paths the pipeline produces, whose final component is the
nonempty file name). -/
def pathName (s : String) : String :=
  ((splitOnChar '/' s.toList).getLastD s.toList).asString

/-- Index of the last `.` in a list of characters, if any
(`str.rfind`). -/
def lastDot (cs : List Char) : Option ℕ :=
  (List.range cs.length).foldl (fun acc i => if cs.getD i ' ' = '.' then some i else acc) none

/-- `pathlib.PurePath.stem`: the final path component without its suffix.
The suffix is dropped only when the last dot is neither the first nor the
last character of the name. -/
def pathStem (s : String) : String :=
  let n := pathName s
  let cs := n.toList
  match lastDot cs with
  | none => n
  | some i => if 0 < i ∧ i + 1 < cs.length then (cs.take i).asString else n

/-- Exceptions that can surface from `process_image`.  The repository
defines no exception classes of its own and performs no input validation;
`indexError` models the `IndexError` raised inside
`skimage.filters.threshold_otsu` on an empty array
(`image.reshape(-1)[0]`).  `invalidInputError` represents the
`InvalidInputError` of the specification's error taxonomy; it exists here
only so that statements about it can be made — no code path produces
it. -/
inductive PyError
  | indexError
  | invalidInputError
deriving DecidableEq, Repr

/-- The pair returned by `process_image`: the label image and the
per-nucleus measurement table. -/
structure SegResult where
  label_img : Pos → ℕ
  df : List Row

/-- `process_image(image_path, min_nucleus_size)` from
`src/segmentation.py` (the optional label-saving side effect is
orchestration-layer I/O and is omitted; the loaded image is passed
explicitly since the Image Loader is an external collaborator):
background correction by global median subtraction with clipping, Otsu
threshold computed on the background-subtracted image but compared
against the raw image, small-object removal, hole filling,
connected-component labeling, and per-label measurement extraction. -/
def process_image (image_path : String) (img : Img) (min_nucleus_size : ℤ) :
    Except PyError SegResult :=
  if img.h * img.w = 0 then .error .indexError
  else
    let image_id := pathStem image_path
    let nuc_mask0 := preMask img
    let nuc_mask1 := remove_small_objects nuc_mask0 min_nucleus_size
    let nuc_mask2 := binary_fill_holes img nuc_mask1
    .ok { label_img := fun p => label img nuc_mask2 p,
          df := regionprops_table img nuc_mask2 image_id }

/-! ### Basic facts about the embedded primitives -/

theorem pixList_length (img : Img) : img.pixList.length = img.h * img.w := by
  unfold Img.pixList
  rw [List.length_flatten, List.map_map]
  have : (List.length ∘ fun i => (List.range img.w).map (fun j => img.pix i j))
      = fun _ => img.w := by
    funext i
    simp
  rw [this]
  simp [List.map_const', mul_comm]

theorem pixList_forall {img : Img} {c : ℚ}
    (hc : ∀ i < img.h, ∀ j < img.w, img.pix i j = c) :
    ∀ v ∈ img.pixList, v = c := by
  intro v hv
  unfold Img.pixList at hv
  rw [List.mem_flatten] at hv
  obtain ⟨row, hrow, hvrow⟩ := hv
  rw [List.mem_map] at hrow
  obtain ⟨i, hi, rfl⟩ := hrow
  rw [List.mem_map] at hvrow
  obtain ⟨j, hj, rfl⟩ := hvrow
  exact hc i (List.mem_range.mp hi) j (List.mem_range.mp hj)

theorem pixList_ne_nil {img : Img} (hne : img.h * img.w ≠ 0) :
    img.pixList ≠ [] := by
  intro h
  have hlen := pixList_length img
  rw [h] at hlen
  simp only [List.length_nil] at hlen
  exact hne hlen.symm

theorem npMedian_const {l : List ℚ} {c : ℚ} (hne : l ≠ [])
    (hc : ∀ v ∈ l, v = c) : npMedian l = c := by
  unfold npMedian
  have hperm : List.Perm (List.insertionSort (· ≤ ·) l) l := List.perm_insertionSort _ l
  have hlen : (List.insertionSort (· ≤ ·) l).length = l.length := hperm.length_eq
  have hpos : 0 < l.length := List.length_pos.mpr hne
  have hgetD : ∀ i, i < l.length → (List.insertionSort (· ≤ ·) l).getD i 0 = c := by
    intro i hi
    rw [List.getD_eq_getElem _ _ (by omega)]
    exact hc _ (hperm.mem_iff.mp (List.getElem_mem _))
  by_cases hodd : l.length % 2 = 1
  · rw [if_pos hodd, hgetD _ (by omega)]
  · rw [if_neg hodd, hgetD _ (by omega), hgetD _ (by omega)]
    ring

theorem threshold_otsu_const {vals : List ℚ} {c : ℚ} (hne : vals ≠ [])
    (hc : ∀ v ∈ vals, v = c) : threshold_otsu vals = c := by
  match vals, hne with
  | v0 :: rest, _ =>
    have hv0 : v0 = c := hc v0 (List.mem_cons_self v0 rest)
    have hall : (v0 :: rest).all (fun v => decide (v = v0)) = true := by
      rw [List.all_eq_true]
      intro v hv
      rw [decide_eq_true_eq, hc v hv, hv0]
    rw [threshold_otsu, if_pos hall]
    exact hv0

theorem subValues_length (img : Img) : (subValues img).length = img.h * img.w := by
  rw [subValues, List.length_map, pixList_length]

theorem subValues_const {img : Img} {c : ℚ}
    (hc : ∀ i < img.h, ∀ j < img.w, img.pix i j = c)
    (hbg : backgroundLevel img = c) :
    ∀ v ∈ subValues img, v = 0 := by
  intro v hv
  rw [subValues, List.mem_map] at hv
  obtain ⟨u, hu, rfl⟩ := hv
  rw [pixList_forall hc u hu, hbg]
  ring

theorem mem_cells_iff (img : Img) (p : Pos) :
    p ∈ img.cells ↔ p.1 < img.h ∧ p.2 < img.w := by
  rw [Img.cells, Finset.mem_product, Finset.mem_range, Finset.mem_range]

/-! ### Facts about the instance labeler -/

theorem enc_injOn (img : Img) {a b : Pos} (ha : a ∈ img.cells) (hb : b ∈ img.cells)
    (h : enc img a = enc img b) : a = b := by
  rw [mem_cells_iff] at ha hb
  rw [enc, enc] at h
  have hw : 0 < img.w := Nat.pos_of_ne_zero (fun e => by omega)
  have h1 : a.1 = b.1 := by
    rcases Nat.lt_trichotomy a.1 b.1 with hlt | heq | hgt
    · exfalso
      have : a.1 * img.w + img.w ≤ b.1 * img.w := by
        have := Nat.succ_le_of_lt hlt
        calc a.1 * img.w + img.w = (a.1 + 1) * img.w := by ring
          _ ≤ b.1 * img.w := Nat.mul_le_mul_right _ this
      omega
    · exact heq
    · exfalso
      have : b.1 * img.w + img.w ≤ a.1 * img.w := by
        have := Nat.succ_le_of_lt hgt
        calc b.1 * img.w + img.w = (b.1 + 1) * img.w := by ring
          _ ≤ a.1 * img.w := Nat.mul_le_mul_right _ this
      omega
  have h2 : a.2 = b.2 := by rw [h1] at h; omega
  exact Prod.ext h1 h2

theorem adj8_symm_fun : ∀ a b : Pos, adj8 a b → adj8 b a := fun _ _ h => adj8_symm h

theorem adj4_symm_fun : ∀ a b : Pos, adj4 a b → adj4 b a := fun _ _ h => adj4_symm h

theorem repOf_mem (img : Img) (m : Finset Pos) (p : Pos) :
    ∃ a ∈ component adj8 m p, enc img a = repOf img m p := by
  have hne : ((component adj8 m p).image (enc img)).Nonempty :=
    ⟨enc img p, Finset.mem_image_of_mem _ (mem_component_self adj8 m p)⟩
  obtain ⟨a, ha⟩ := Finset.min_of_nonempty hne
  have hmem := Finset.mem_of_min ha
  rw [Finset.mem_image] at hmem
  obtain ⟨q, hq, henc⟩ := hmem
  refine ⟨q, hq, ?_⟩
  rw [repOf, ha, henc]
  rfl

theorem repOf_le (img : Img) (m : Finset Pos) {p b : Pos}
    (hb : b ∈ component adj8 m p) : repOf img m p ≤ enc img b := by
  have hne : ((component adj8 m p).image (enc img)).Nonempty :=
    ⟨enc img p, Finset.mem_image_of_mem _ (mem_component_self adj8 m p)⟩
  obtain ⟨a, ha⟩ := Finset.min_of_nonempty hne
  have hle := Finset.min_le (Finset.mem_image_of_mem (enc img) hb)
  rw [ha] at hle
  have : a ≤ enc img b := WithTop.coe_le_coe.mp hle
  rw [repOf, ha]
  exact this

theorem repOf_congr (img : Img) (m : Finset Pos) {p q : Pos} (hp : p ∈ m)
    (hq : q ∈ component adj8 m p) : repOf img m q = repOf img m p := by
  rw [repOf, repOf, ← component_eq_of_mem adj8 adj8_symm_fun m hp hq]

theorem component_eq_of_repOf_eq (img : Img) {m : Finset Pos} (hsub : m ⊆ img.cells)
    {p q : Pos} (hp : p ∈ m) (hq : q ∈ m)
    (h : repOf img m p = repOf img m q) : q ∈ component adj8 m p := by
  obtain ⟨a, ha, hae⟩ := repOf_mem img m p
  obtain ⟨b, hb, hbe⟩ := repOf_mem img m q
  have hac : a ∈ img.cells := hsub (component_subset_cells adj8 m hp ha)
  have hbc : b ∈ img.cells := hsub (component_subset_cells adj8 m hq hb)
  have hab : a = b := enc_injOn img hac hbc (by rw [hae, hbe, h])
  have h1 := component_eq_of_mem adj8 adj8_symm_fun m hp ha
  have h2 := component_eq_of_mem adj8 adj8_symm_fun m hq hb
  rw [h1, hab, ← h2]
  exact mem_component_self adj8 m q

/-- Taking each element of a finite set of naturals to the number of
elements not exceeding it maps the set exactly onto `{1, ..., card}`. -/
theorem rank_image (s : Finset ℕ) :
    s.image (fun r => (s.filter (fun x => x ≤ r)).card) = Finset.Icc 1 s.card := by
  suffices H : ∀ (n : ℕ) (s : Finset ℕ), s.card = n →
      s.image (fun r => (s.filter (fun x => x ≤ r)).card) = Finset.Icc 1 s.card from
    H s.card s rfl
  intro n
  induction n with
  | zero =>
    intro s hcard
    rw [Finset.card_eq_zero] at hcard
    subst hcard
    simp
  | succ n ih =>
    intro s hcard
    have hne : s.Nonempty := by rw [← Finset.card_pos, hcard]; omega
    have hMs : s.max' hne ∈ s := s.max'_mem hne
    have herase : (s.erase (s.max' hne)).card = n := by
      rw [Finset.card_erase_of_mem hMs, hcard]
      omega
    have hrankM : (s.filter (fun x => x ≤ s.max' hne)).card = n + 1 := by
      rw [Finset.filter_true_of_mem (fun x hx => s.le_max' x hx), hcard]
    have hfilter : ∀ r ∈ s.erase (s.max' hne),
        s.filter (fun x => x ≤ r) = (s.erase (s.max' hne)).filter (fun x => x ≤ r) := by
      intro r hr
      obtain ⟨hrM, hrs⟩ := Finset.mem_erase.mp hr
      ext x
      rw [Finset.mem_filter, Finset.mem_filter, Finset.mem_erase]
      constructor
      · rintro ⟨hx, hxr⟩
        refine ⟨⟨fun e => hrM ?_, hx⟩, hxr⟩
        subst e
        exact le_antisymm (s.le_max' r hrs) hxr
      · rintro ⟨⟨-, hx⟩, hxr⟩
        exact ⟨hx, hxr⟩
    calc s.image (fun r => (s.filter (fun x => x ≤ r)).card)
        = insert ((s.filter (fun x => x ≤ s.max' hne)).card)
            ((s.erase (s.max' hne)).image (fun r => (s.filter (fun x => x ≤ r)).card)) := by
          ext y
          simp only [Finset.mem_image, Finset.mem_insert]
          constructor
          · rintro ⟨r, hr, rfl⟩
            by_cases hrM : r = s.max' hne
            · subst hrM; exact Or.inl rfl
            · exact Or.inr ⟨r, Finset.mem_erase.mpr ⟨hrM, hr⟩, rfl⟩
          · rintro (rfl | ⟨r, hr, rfl⟩)
            · exact ⟨s.max' hne, hMs, rfl⟩
            · exact ⟨r, (Finset.mem_erase.mp hr).2, rfl⟩
      _ = insert (n + 1)
            ((s.erase (s.max' hne)).image
              (fun r => ((s.erase (s.max' hne)).filter (fun x => x ≤ r)).card)) := by
          rw [hrankM]
          congr 1
          apply Finset.image_congr
          intro r hr
          show (s.filter (fun x => x ≤ r)).card
              = ((s.erase (s.max' hne)).filter (fun x => x ≤ r)).card
          rw [hfilter r (Finset.mem_coe.mp hr)]
      _ = insert (n + 1) (Finset.Icc 1 n) := by
          rw [ih _ herase, herase]
      _ = Finset.Icc 1 (n + 1) := by
          ext x
          simp only [Finset.mem_insert, Finset.mem_Icc]
          omega
      _ = Finset.Icc 1 s.card := by rw [hcard]

theorem rank_lt_of_lt (s : Finset ℕ) {r1 r2 : ℕ} (h2 : r2 ∈ s) (hlt : r1 < r2) :
    (s.filter (fun x => x ≤ r1)).card < (s.filter (fun x => x ≤ r2)).card := by
  apply Finset.card_lt_card
  rw [Finset.ssubset_iff_subset_ne]
  constructor
  · intro x hx
    rw [Finset.mem_filter] at hx ⊢
    exact ⟨hx.1, le_trans hx.2 (le_of_lt hlt)⟩
  · intro e
    have : r2 ∈ s.filter (fun x => x ≤ r1) := by
      rw [e, Finset.mem_filter]
      exact ⟨h2, le_refl r2⟩
    rw [Finset.mem_filter] at this
    omega

theorem rank_injOn (s : Finset ℕ) {r1 r2 : ℕ} (h1 : r1 ∈ s) (h2 : r2 ∈ s)
    (h : (s.filter (fun x => x ≤ r1)).card = (s.filter (fun x => x ≤ r2)).card) :
    r1 = r2 := by
  rcases Nat.lt_trichotomy r1 r2 with hlt | heq | hgt
  · exact absurd h (rank_lt_of_lt s h2 hlt).ne
  · exact heq
  · exact absurd h.symm (rank_lt_of_lt s h1 hgt).ne

theorem label_pos {img : Img} {m : Finset Pos} {p : Pos} (hp : p ∈ m) :
    1 ≤ label img m p := by
  rw [label, if_pos hp]
  refine Finset.card_pos.mpr ⟨repOf img m p, ?_⟩
  rw [Finset.mem_filter]
  exact ⟨Finset.mem_image_of_mem _ hp, le_refl _⟩

theorem label_eq_zero {img : Img} {m : Finset Pos} {p : Pos} (hp : p ∉ m) :
    label img m p = 0 := if_neg hp

/-- Two foreground pixels carry the same label exactly when they lie in
the same 8-connected component of the mask. -/
theorem label_eq_iff (img : Img) {m : Finset Pos} (hsub : m ⊆ img.cells)
    {p q : Pos} (hp : p ∈ m) (hq : q ∈ m) :
    label img m p = label img m q ↔ q ∈ component adj8 m p := by
  constructor
  · intro h
    rw [label, if_pos hp, label, if_pos hq] at h
    have hrep : repOf img m p = repOf img m q :=
      rank_injOn (repSet img m) (Finset.mem_image_of_mem _ hp)
        (Finset.mem_image_of_mem _ hq) h
    exact component_eq_of_repOf_eq img hsub hp hq hrep
  · intro h
    rw [label, if_pos hp, label, if_pos hq, repOf_congr img m hp h]

/-- The number of 8-connected components of a mask. -/
def numComponents (m : Finset Pos) : ℕ :=
  (m.image (fun p => component adj8 m p)).card

theorem repSet_card (img : Img) {m : Finset Pos} (hsub : m ⊆ img.cells) :
    (repSet img m).card = numComponents m := by
  have hfact : repSet img m = (m.image (fun p => component adj8 m p)).image
      (fun c => ((c.image (enc img)).min).getD 0) := by
    rw [Finset.image_image]
    rfl
  rw [hfact, numComponents]
  apply Finset.card_image_of_injOn
  intro c1 hc1 c2 hc2 hg
  rw [Finset.mem_coe, Finset.mem_image] at hc1 hc2
  obtain ⟨p, hp, rfl⟩ := hc1
  obtain ⟨q, hq, rfl⟩ := hc2
  exact component_eq_of_mem adj8 adj8_symm_fun m hp
    (component_eq_of_repOf_eq img hsub hp hq hg)

/-- The labels of the foreground pixels are exactly `{1, ..., k}` where
`k` is the number of 8-connected components. -/
theorem label_image_eq (img : Img) {m : Finset Pos} (hsub : m ⊆ img.cells) :
    m.image (label img m) = Finset.Icc 1 (numComponents m) := by
  have hcompose : m.image (label img m) = (repSet img m).image
      (fun r => ((repSet img m).filter (fun x => x ≤ r)).card) := by
    rw [repSet, Finset.image_image]
    apply Finset.image_congr
    intro p hp
    have hp' : p ∈ m := Finset.mem_coe.mp hp
    simp only [Function.comp_apply, label, repSet, if_pos hp']
  rw [hcompose, rank_image, repSet_card img hsub]

/-- In a full grid every cell is 4-connected to the border through the
grid itself (walk up its column). -/
theorem reach_border_full (img : Img) :
    reach adj4 img.cells (img.cells.filter (fun p => isBorder img p)) = img.cells := by
  apply Finset.Subset.antisymm
  · exact reach_subset adj4 _ _ (Finset.filter_subset _ _)
  · intro p hp
    obtain ⟨hi, hj⟩ := (mem_cells_iff img p).mp hp
    have key : ∀ i j, i < img.h → j < img.w →
        ((i, j) : Pos) ∈ reach adj4 img.cells
          (img.cells.filter (fun q => isBorder img q)) := by
      intro i
      induction i with
      | zero =>
        intro j hi0 hj0
        apply subset_reach
        exact Finset.mem_filter.mpr ⟨(mem_cells_iff img _).mpr ⟨hi0, hj0⟩, Or.inl rfl⟩
      | succ i ih =>
        intro j hi0 hj0
        refine reach_closed adj4 _ _ (Finset.filter_subset _ _)
          (ih j (by omega) hj0) ((mem_cells_iff img _).mpr ⟨hi0, hj0⟩) ?_
        show adj4 (i, j) (i + 1, j)
        unfold adj4 Nat.dist
        simp
    have := key p.1 p.2 hi hj
    simpa using this

/-- For a nonempty image `process_image` takes the success branch and
returns the label image and the measurement table of the cleaned-up
mask. -/
theorem process_image_eq (path : String) (img : Img) (s : ℤ)
    (hne : img.h * img.w ≠ 0) :
    process_image path img s = .ok
      { label_img := fun p =>
          label img (binary_fill_holes img (remove_small_objects (preMask img) s)) p,
        df := regionprops_table img
          (binary_fill_holes img (remove_small_objects (preMask img) s))
          (pathStem path) } := by
  rw [process_image, if_neg hne]

/-! ### Concrete fixtures used by witnesses and counterexamples -/

/-- 2×2 image with two intensity levels. -/
def imgA : Img := ⟨2, 2, fun i _ => if i = 0 then 10 else 200⟩

/-- 2×2 constant image of value 5. -/
def imgConst : Img := ⟨2, 2, fun _ _ => 5⟩

/-- 2×2 all-zero image. -/
def imgZero : Img := ⟨2, 2, fun _ _ => 0⟩

/-- 1×1 image. -/
def imgOne : Img := ⟨1, 1, fun _ _ => 7⟩

/-- Empty image (zero rows). -/
def imgEmpty : Img := ⟨0, 3, fun _ _ => 0⟩

/-- 3×3 zero image (geometry carrier for mask fixtures). -/
def imgRing : Img := ⟨3, 3, fun _ _ => 0⟩

/-- Two diagonally adjacent pixels: one 8-connected component but two
4-connected components. -/
def maskDiag : Finset Pos := {(0, 0), (1, 1)}

/-- A foreground ring occupying the border of the 3×3 grid, enclosing the
single background pixel (1,1). -/
def maskRing : Finset Pos := imgRing.cells.filter (fun p => p ≠ (1, 1))

/-- Two isolated pixels (two 8-connected components). -/
def maskTwo : Finset Pos := {(0, 0), (2, 2)}

/-! ### The claims -/

/-- **C1.** For every raw image, the foreground mask before morphological
cleanup equals `raw_image > t` where `t` is the Otsu threshold computed on
the background-subtracted image `raw_image − median(raw_image)`; the
comparison is made against the original unshifted raw pixel values, not
the subtracted or corrected image.  (`thresh =
filters.threshold_otsu(img - bg)` followed by `nuc_mask = img >
thresh`.) -/
theorem claim_C1 (img : Img) (p : Pos) :
    p ∈ preMask img ↔ p ∈ img.cells ∧
      threshold_otsu (img.pixList.map (fun v => v - npMedian img.pixList))
        < img.pix p.1 p.2 := by
  rw [preMask, Finset.mem_filter, otsuThreshold, subValues, backgroundLevel]

/-- **C4.** For every non-empty raw image the corrected image satisfies
`corrected[i,j] = max(raw[i,j] − median(raw), 0)` at every in-bounds
pixel, where the background level is the median of all raw pixel values,
and consequently every corrected pixel is non-negative.  (The corrected
image is a function on the same `h × w` grid, so it has the same
dimensions by construction.) -/
theorem claim_C4 (img : Img) (hne : img.h * img.w ≠ 0) (i j : ℕ)
    (hi : i < img.h) (hj : j < img.w) :
    fl_corr img i j = max (img.pix i j - npMedian img.pixList) 0 ∧
      0 ≤ fl_corr img i j := by
  constructor
  · rfl
  · exact le_max_right _ _

/-- Witness for C4 at a concrete 2×2 image. -/
theorem claim_C4_witness :
    (imgA.h * imgA.w ≠ 0 ∧ 0 < imgA.h ∧ 0 < imgA.w) ∧
    (fl_corr imgA 0 0 = max (imgA.pix 0 0 - npMedian imgA.pixList) 0 ∧
      0 ≤ fl_corr imgA 0 0) :=
  ⟨by decide, claim_C4 imgA (by decide) 0 0 (by decide) (by decide)⟩

/-- **C3** is false on the code: `process_image` performs no input
validation at all.  With a negative `min_object_size` it succeeds (the
library's `component_sizes < min_size` test is everywhere false, so
removal is a no-op) instead of failing with `InvalidInputError`. -/
theorem claim_C3_counterexample :
    (∃ r, process_image "cells.tif" imgOne (-3) = .ok r) ∧
    process_image "cells.tif" imgOne (-3) ≠ .error PyError.invalidInputError := by
  constructor
  · exact ⟨_, process_image_eq "cells.tif" imgOne (-3) (by decide)⟩
  · intro h
    rw [process_image_eq "cells.tif" imgOne (-3) (by decide)] at h
    exact Except.noConfusion h

/-- **C3 (amended).** The code performs no input validation and never
raises `InvalidInputError`: for every non-empty image and every
`min_object_size` (negative included) `process_image` completes
successfully, and an empty image fails inside `threshold_otsu` with an
`IndexError`, not with `InvalidInputError`. -/
theorem claim_C3_amended (path : String) (img : Img) (s : ℤ) :
    (img.h * img.w ≠ 0 → ∃ r, process_image path img s = .ok r) ∧
    (img.h * img.w = 0 → process_image path img s = .error PyError.indexError) ∧
    process_image path img s ≠ .error PyError.invalidInputError := by
  refine ⟨fun hne => ⟨_, process_image_eq path img s hne⟩, ?_, ?_⟩
  · intro hz
    rw [process_image, if_pos hz]
  · intro h
    by_cases hz : img.h * img.w = 0
    · rw [process_image, if_pos hz] at h
      have := (Except.error.injEq _ _).mp h
      exact PyError.noConfusion this
    · rw [process_image_eq path img s hz] at h
      exact Except.noConfusion h

/-- Witness for the amended C3: a nonempty 1×1 image succeeds, an empty
image yields an `IndexError`. -/
theorem claim_C3_amended_witness :
    (imgOne.h * imgOne.w ≠ 0 ∧ ∃ r, process_image "w1.tif" imgOne 100 = .ok r) ∧
    (imgEmpty.h * imgEmpty.w = 0 ∧
      process_image "w2.tif" imgEmpty 100 = .error PyError.indexError) :=
  ⟨⟨by decide, (claim_C3_amended "w1.tif" imgOne 100).1 (by decide)⟩,
   ⟨by decide, (claim_C3_amended "w2.tif" imgEmpty 100).2.1 (by decide)⟩⟩

/-- **C5.** For a constant image the core does not raise: the background
level is the constant, the image that threshold selection operates on
(the background-subtracted image) is constantly `0`, `threshold_otsu`
falls back to that constant value `0`, and the foreground mask is empty
(when the constant is `≤ 0`) or full (when it is `> 0`).  For a
fully-zero raw image the final mask is empty, every label is `0`, and the
measurement table is empty. -/
theorem claim_C5 (path : String) (img : Img) (s : ℤ) (c : ℚ)
    (hne : img.h * img.w ≠ 0)
    (hc : ∀ i < img.h, ∀ j < img.w, img.pix i j = c) :
    backgroundLevel img = c ∧
    (∀ v ∈ subValues img, v = 0) ∧
    otsuThreshold img = 0 ∧
    (preMask img = ∅ ∨ preMask img = img.cells) ∧
    (∃ r, process_image path img s = .ok r) ∧
    (c = 0 → ∃ r, process_image path img s = .ok r ∧ r.df = [] ∧
      ∀ p, r.label_img p = 0) := by
  have hbg : backgroundLevel img = c :=
    npMedian_const (pixList_ne_nil hne) (pixList_forall hc)
  have hsubv : ∀ v ∈ subValues img, v = 0 := subValues_const hc hbg
  have hsubne : subValues img ≠ [] := by
    intro e
    have := subValues_length img
    rw [e] at this
    simp only [List.length_nil] at this
    exact hne this.symm
  have hthresh : otsuThreshold img = 0 := threshold_otsu_const hsubne hsubv
  have hmask : preMask img = ∅ ∨ preMask img = img.cells := by
    by_cases h0 : 0 < c
    · right
      rw [preMask]
      apply Finset.filter_true_of_mem
      intro p hp
      obtain ⟨hi, hj⟩ := (mem_cells_iff img p).mp hp
      rw [hthresh, hc p.1 hi p.2 hj]
      exact h0
    · left
      rw [preMask]
      apply Finset.filter_false_of_mem
      intro p hp
      obtain ⟨hi, hj⟩ := (mem_cells_iff img p).mp hp
      rw [hthresh, hc p.1 hi p.2 hj]
      exact h0
  refine ⟨hbg, hsubv, hthresh, hmask, ⟨_, process_image_eq path img s hne⟩, ?_⟩
  intro hc0
  have hm0 : preMask img = ∅ := by
    rcases hmask with h | h
    · exact h
    · rw [preMask] at h ⊢
      apply Finset.filter_false_of_mem
      intro p hp
      obtain ⟨hi, hj⟩ := (mem_cells_iff img p).mp hp
      rw [hthresh, hc p.1 hi p.2 hj, hc0]
      exact lt_irrefl 0
  have hm1 : remove_small_objects (preMask img) s = ∅ := by
    rw [hm0, remove_small_objects, Finset.filter_empty]
  have hm2 : binary_fill_holes img (remove_small_objects (preMask img) s) = ∅ := by
    rw [hm1, binary_fill_holes, Finset.sdiff_empty, reach_border_full, Finset.sdiff_self]
  refine ⟨_, process_image_eq path img s hne, ?_, ?_⟩
  · show regionprops_table img (binary_fill_holes img
      (remove_small_objects (preMask img) s)) (pathStem path) = []
    rw [hm2, regionprops_table, Finset.image_empty, Finset.sort_empty, List.map_nil]
  · intro p
    show label img (binary_fill_holes img (remove_small_objects (preMask img) s)) p = 0
    rw [hm2]
    exact label_eq_zero (Finset.not_mem_empty p)

/-- Witness for C5 at a concrete constant image (value 5) and at the
all-zero image. -/
theorem claim_C5_witness :
    (imgConst.h * imgConst.w ≠ 0 ∧
      (∀ i < imgConst.h, ∀ j < imgConst.w, imgConst.pix i j = 5) ∧
      backgroundLevel imgConst = 5 ∧ otsuThreshold imgConst = 0) ∧
    (imgZero.h * imgZero.w ≠ 0 ∧
      (∀ i < imgZero.h, ∀ j < imgZero.w, imgZero.pix i j = 0) ∧
      ∃ r, process_image "z.tif" imgZero 100 = .ok r ∧ r.df = [] ∧
        ∀ p, r.label_img p = 0) :=
  ⟨⟨by decide, by decide,
    ((claim_C5 "c.tif" imgConst 100 5 (by decide) (by decide)).1),
    ((claim_C5 "c.tif" imgConst 100 5 (by decide) (by decide)).2.2.1)⟩,
   ⟨by decide, by decide,
    ((claim_C5 "z.tif" imgZero 100 0 (by decide) (by decide)).2.2.2.2.2 rfl)⟩⟩

/-- **C2** is false on the code: the three library calls do not share one
neighbor definition.  `remove_small_objects` sizes components under its
default 4-connectivity, while `measure.label` groups under its default
8-connectivity.  On the diagonal-pair mask the two pixels lie in one
8-connected component (the labeler gives both the same label), yet
removal with `min_size = 2` sizes them as two singleton 4-components and
clears both. -/
theorem claim_C2_counterexample :
    ((1, 1) ∈ component adj8 maskDiag (0, 0) ∧
      (1, 1) ∉ component adj4 maskDiag (0, 0)) ∧
    label imgConst maskDiag (0, 0) = label imgConst maskDiag (1, 1) ∧
    remove_small_objects maskDiag 2 = ∅ := by decide

/-- **C2 (amended).** The connectivity policies differ: small-object
removal sizes and removes under 4-connectivity, the labeler groups under
8-connectivity, and the two neighbor definitions disagree on diagonal
pairs. -/
theorem claim_C2_amended (img : Img) (m : Finset Pos) (hsub : m ⊆ img.cells)
    (t : ℤ) (p q : Pos) (hp : p ∈ m) (hq : q ∈ m) :
    (p ∈ remove_small_objects m t ↔ t ≤ ((component adj4 m p).card : ℤ)) ∧
    (label img m p = label img m q ↔ q ∈ component adj8 m p) ∧
    adj8 ((0, 0) : Pos) ((1, 1) : Pos) ∧ ¬ adj4 ((0, 0) : Pos) ((1, 1) : Pos) := by
  refine ⟨?_, label_eq_iff img hsub hp hq, by decide, by decide⟩
  rw [remove_small_objects, Finset.mem_filter]
  exact ⟨fun h => h.2, fun h => ⟨hp, h⟩⟩

/-- Witness for the amended C2 on the diagonal-pair mask. -/
theorem claim_C2_amended_witness :
    (maskDiag ⊆ imgConst.cells ∧ (0, 0) ∈ maskDiag ∧ (1, 1) ∈ maskDiag) ∧
    (((0, 0) ∈ remove_small_objects maskDiag 2 ↔
        (2 : ℤ) ≤ ((component adj4 maskDiag (0, 0)).card : ℤ)) ∧
      (label imgConst maskDiag (0, 0) = label imgConst maskDiag (1, 1) ↔
        (1, 1) ∈ component adj8 maskDiag (0, 0)) ∧
      adj8 ((0, 0) : Pos) ((1, 1) : Pos) ∧ ¬ adj4 ((0, 0) : Pos) ((1, 1) : Pos)) :=
  ⟨⟨by decide, by decide, by decide⟩,
   claim_C2_amended imgConst maskDiag (by decide) 2 (0, 0) (1, 1)
     (by decide) (by decide)⟩

/-- **C6.** For any mask whose `k` disjoint 8-connected regions each have
at least `min_object_size` pixels, labeling produces exactly `k` distinct
positive labels forming the contiguous range `1..k` with no gaps (the
assignment itself is the deterministic raster first-encounter
enumeration, a function of the mask alone), and background pixels get
`0`. -/
theorem claim_C6 (img : Img) (m : Finset Pos) (hsub : m ⊆ img.cells)
    (k : ℕ) (hk : numComponents m = k) (minSize : ℕ)
    (hmin : ∀ p ∈ m, minSize ≤ (component adj8 m p).card) :
    m.image (label img m) = Finset.Icc 1 k ∧
    (m.image (label img m)).card = k ∧
    (∀ p, p ∉ m → label img m p = 0) ∧
    (∀ p ∈ m, 1 ≤ label img m p) := by
  have h1 := label_image_eq img hsub
  rw [hk] at h1
  refine ⟨h1, ?_, fun p hp => label_eq_zero hp, fun p hp => label_pos hp⟩
  rw [h1, Nat.card_Icc]
  omega

/-- Witness for C6 on a mask with two isolated components. -/
theorem claim_C6_witness :
    (maskTwo ⊆ imgRing.cells ∧ numComponents maskTwo = 2 ∧
      ∀ p ∈ maskTwo, 1 ≤ (component adj8 maskTwo p).card) ∧
    (maskTwo.image (label imgRing maskTwo) = Finset.Icc 1 2 ∧
      (maskTwo.image (label imgRing maskTwo)).card = 2 ∧
      (∀ p, p ∉ maskTwo → label imgRing maskTwo p = 0) ∧
      (∀ p ∈ maskTwo, 1 ≤ label imgRing maskTwo p)) :=
  ⟨⟨by decide, by decide, by decide⟩,
   claim_C6 imgRing maskTwo (by decide) 2 (by decide) 1 (by decide)⟩

/-- **C8.** Small-object removal clears exactly the connected
true-regions (4-connectivity, the call's default) whose pixel count is
strictly below `min_object_size`: a component of size exactly
`min_object_size − 1` is removed entirely, one of size exactly
`min_object_size` is retained entirely. -/
theorem claim_C8 (m : Finset Pos) (s : ℕ) (hs : 1 ≤ s) (p : Pos) (hp : p ∈ m) :
    (∀ q ∈ m, (q ∈ remove_small_objects m (s : ℤ) ↔
      s ≤ (component adj4 m q).card)) ∧
    ((component adj4 m p).card = s - 1 →
      ∀ q ∈ component adj4 m p, q ∉ remove_small_objects m (s : ℤ)) ∧
    ((component adj4 m p).card = s →
      ∀ q ∈ component adj4 m p, q ∈ remove_small_objects m (s : ℤ)) := by
  have hchar : ∀ q ∈ m, (q ∈ remove_small_objects m (s : ℤ) ↔
      s ≤ (component adj4 m q).card) := by
    intro q hq
    rw [remove_small_objects, Finset.mem_filter]
    constructor
    · intro h
      exact_mod_cast h.2
    · intro h
      exact ⟨hq, by exact_mod_cast h⟩
  refine ⟨hchar, ?_, ?_⟩
  · intro hcard q hq
    have hqm : q ∈ m := component_subset_cells adj4 m hp hq
    have hcomp := component_eq_of_mem adj4 adj4_symm_fun m hp hq
    rw [hchar q hqm, ← hcomp, hcard]
    omega
  · intro hcard q hq
    have hqm : q ∈ m := component_subset_cells adj4 m hp hq
    have hcomp := component_eq_of_mem adj4 adj4_symm_fun m hp hq
    rw [hchar q hqm, ← hcomp, hcard]

/-- Witness for C8 at the boundary `min_object_size = 2` on a singleton
4-component (size `2 − 1 = 1`, removed). -/
theorem claim_C8_witness :
    (1 ≤ 2 ∧ (0, 0) ∈ maskDiag) ∧
    ((∀ q ∈ maskDiag, (q ∈ remove_small_objects maskDiag ((2 : ℕ) : ℤ) ↔
        2 ≤ (component adj4 maskDiag q).card)) ∧
      ((component adj4 maskDiag (0, 0)).card = 2 - 1 →
        ∀ q ∈ component adj4 maskDiag (0, 0),
          q ∉ remove_small_objects maskDiag ((2 : ℕ) : ℤ)) ∧
      ((component adj4 maskDiag (0, 0)).card = 2 →
        ∀ q ∈ component adj4 maskDiag (0, 0),
          q ∈ remove_small_objects maskDiag ((2 : ℕ) : ℤ))) :=
  ⟨⟨by decide, by decide⟩, claim_C8 maskDiag 2 (by decide) (0, 0) (by decide)⟩

/-- **C9.** Hole filling sets to true exactly the false-regions fully
enclosed by true pixels: an in-bounds pixel is foreground after
`binary_fill_holes` iff it was foreground already, or its 4-connected
background region contains no border pixel (is not connected to the
image border).  In particular the pixel enclosed by a foreground ring is
filled, while a background region touching the border is never
filled. -/
theorem claim_C9 (img : Img) (m : Finset Pos) (hsub : m ⊆ img.cells)
    (p : Pos) (hp : p ∈ img.cells) :
    p ∈ binary_fill_holes img m ↔
      (p ∈ m ∨ ∀ q ∈ component adj4 (img.cells \ m) p, ¬ isBorder img q) := by
  rw [binary_fill_holes, Finset.mem_sdiff]
  have hseed : (img.cells \ m).filter (fun q => isBorder img q) ⊆ img.cells \ m :=
    Finset.filter_subset _ _
  by_cases hm : p ∈ m
  · constructor
    · intro _
      exact Or.inl hm
    · intro _
      refine ⟨hp, fun hr => ?_⟩
      have := reach_subset adj4 _ _ hseed hr
      rw [Finset.mem_sdiff] at this
      exact this.2 hm
  · have hpbg : p ∈ img.cells \ m := Finset.mem_sdiff.mpr ⟨hp, hm⟩
    rw [mem_reach_iff adj4 _ _ hseed p]
    constructor
    · rintro ⟨-, hnr⟩
      refine Or.inr (fun q hq hbq => hnr ?_)
      have hqbg : q ∈ img.cells \ m := component_subset_cells adj4 _ hpbg hq
      exact ⟨q, Finset.mem_filter.mpr ⟨hqbg, hbq⟩,
        mem_component_symm adj4 adj4_symm_fun _ hpbg hq⟩
    · rintro (hm2 | hall)
      · exact absurd hm2 hm
      · refine ⟨hp, ?_⟩
        rintro ⟨b, hbseed, hpb⟩
        obtain ⟨hbbg, hbord⟩ := Finset.mem_filter.mp hbseed
        exact hall b (mem_component_symm adj4 adj4_symm_fun _ hbbg hpb) hbord

/-- Witness for C9: on the 3×3 ring mask the theorem applies at the
enclosed center pixel. -/
theorem claim_C9_witness :
    (maskRing ⊆ imgRing.cells ∧ ((1, 1) : Pos) ∈ imgRing.cells) ∧
    (((1, 1) : Pos) ∈ binary_fill_holes imgRing maskRing ↔
      (((1, 1) : Pos) ∈ maskRing ∨
        ∀ q ∈ component adj4 (imgRing.cells \ maskRing) (1, 1),
          ¬ isBorder imgRing q)) :=
  ⟨⟨by decide, by decide⟩, claim_C9 imgRing maskRing (by decide) (1, 1) (by decide)⟩

/-- **C7.** The measurement table has exactly one row per positive label
present in the label image, rows in ascending label order; in every row
`area` is the pixel count of that label's region, `mean_intensity` is the
average corrected-image value over those pixels, `integrated_intensity`
equals `area × mean_intensity` exactly, and `image_id` is the table's
image identifier. -/
theorem claim_C7 (img : Img) (m : Finset Pos) (iid : String)
    (hsub : m ⊆ img.cells) :
    (regionprops_table img m iid).map Row.label
      = (m.image (label img m)).sort (· ≤ ·) ∧
    List.Sorted (· < ·) ((regionprops_table img m iid).map Row.label) ∧
    (∀ l, l ∈ (regionprops_table img m iid).map Row.label ↔
      0 < l ∧ ∃ p ∈ img.cells, label img m p = l) ∧
    ∀ row ∈ regionprops_table img m iid,
      row.area = (img.cells.filter (fun p => label img m p = row.label)).card ∧
      row.mean_intensity =
        (∑ p ∈ img.cells.filter (fun p => label img m p = row.label),
          fl_corr img p.1 p.2) / (row.area : ℚ) ∧
      row.integrated_intensity = (row.area : ℚ) * row.mean_intensity ∧
      row.image_id = iid := by
  have hmap : (regionprops_table img m iid).map Row.label
      = (m.image (label img m)).sort (· ≤ ·) := by
    rw [regionprops_table, List.map_map]
    exact List.map_id _
  have hmem_pos : ∀ l ∈ m.image (label img m),
      0 < l ∧ ∃ p ∈ img.cells, label img m p = l := by
    intro l hl
    rw [Finset.mem_image] at hl
    obtain ⟨p, hp, rfl⟩ := hl
    exact ⟨label_pos hp, p, hsub hp, rfl⟩
  have hregion : ∀ l, 0 < l →
      regionPixels img m l = img.cells.filter (fun p => label img m p = l) := by
    intro l hl
    ext q
    rw [regionPixels, Finset.mem_filter, Finset.mem_filter]
    constructor
    · rintro ⟨hq, hql⟩
      exact ⟨hsub hq, hql⟩
    · rintro ⟨hq, hql⟩
      refine ⟨?_, hql⟩
      by_contra hqm
      rw [label_eq_zero hqm] at hql
      omega
  refine ⟨hmap, ?_, ?_, ?_⟩
  · rw [hmap]
    exact Finset.sort_sorted_lt _
  · intro l
    rw [hmap, Finset.mem_sort]
    constructor
    · exact hmem_pos l
    · rintro ⟨hl, p, hpc, hlp⟩
      rw [Finset.mem_image]
      refine ⟨p, ?_, hlp⟩
      by_contra hpm
      rw [label_eq_zero hpm] at hlp
      omega
  · intro row hrow
    rw [regionprops_table, List.mem_map] at hrow
    obtain ⟨l, hl, rfl⟩ := hrow
    rw [Finset.mem_sort] at hl
    obtain ⟨hlpos, -⟩ := hmem_pos l hl
    have hreg := hregion l hlpos
    refine ⟨?_, ?_, rfl, rfl⟩
    · show (regionPixels img m l).card
        = (img.cells.filter (fun p => label img m p = l)).card
      rw [hreg]
    · show (∑ p ∈ regionPixels img m l, fl_corr img p.1 p.2)
          / ((regionPixels img m l).card : ℚ)
        = (∑ p ∈ img.cells.filter (fun p => label img m p = l),
            fl_corr img p.1 p.2) / ((regionPixels img m l).card : ℚ)
      rw [hreg]

/-- Witness for C7 on a concrete mask. -/
theorem claim_C7_witness :
    maskTwo ⊆ imgRing.cells ∧
    ((regionprops_table imgRing maskTwo "w").map Row.label
        = (maskTwo.image (label imgRing maskTwo)).sort (· ≤ ·) ∧
      List.Sorted (· < ·) ((regionprops_table imgRing maskTwo "w").map Row.label) ∧
      (∀ l, l ∈ (regionprops_table imgRing maskTwo "w").map Row.label ↔
        0 < l ∧ ∃ p ∈ imgRing.cells, label imgRing maskTwo p = l) ∧
      ∀ row ∈ regionprops_table imgRing maskTwo "w",
        row.area = (imgRing.cells.filter
          (fun p => label imgRing maskTwo p = row.label)).card ∧
        row.mean_intensity =
          (∑ p ∈ imgRing.cells.filter
              (fun p => label imgRing maskTwo p = row.label),
            fl_corr imgRing p.1 p.2) / (row.area : ℚ) ∧
        row.integrated_intensity = (row.area : ℚ) * row.mean_intensity ∧
        row.image_id = "w") :=
  ⟨by decide, claim_C7 imgRing maskTwo "w" (by decide)⟩

/-- Every row of a successful `process_image` run carries the path stem
as its `image_id`. -/
theorem df_image_id (path : String) (img : Img) (s : ℤ) (r : SegResult)
    (h : process_image path img s = .ok r) :
    ∀ row ∈ r.df, row.image_id = pathStem path := by
  by_cases hz : img.h * img.w = 0
  · rw [process_image, if_pos hz] at h
    exact Except.noConfusion h
  · rw [process_image_eq path img s hz] at h
    have hr := (Except.ok.injEq _ _).mp h
    subst hr
    intro row hrow
    rw [regionprops_table, List.mem_map] at hrow
    obtain ⟨l, -, rfl⟩ := hrow
    rfl

/-- **C10.** Every row of an image's measurement table carries as
`image_id` the input file name with its extension removed (the path
stem); hence all rows from one image share one `image_id`, and rows
produced from files with equal stems (e.g. in different directories) are
indistinguishable by `image_id`. -/
theorem claim_C10 (path : String) (img : Img) (s : ℤ) (r : SegResult)
    (h : process_image path img s = .ok r) :
    (∀ row ∈ r.df, row.image_id = pathStem path) ∧
    (∀ row1 ∈ r.df, ∀ row2 ∈ r.df, row1.image_id = row2.image_id) ∧
    ∀ path2 img2 s2 r2, process_image path2 img2 s2 = .ok r2 →
      pathStem path2 = pathStem path →
      ∀ row ∈ r.df, ∀ row2 ∈ r2.df, row.image_id = row2.image_id := by
  have h1 := df_image_id path img s r h
  refine ⟨h1, ?_, ?_⟩
  · intro row1 hrow1 row2 hrow2
    rw [h1 row1 hrow1, h1 row2 hrow2]
  · intro path2 img2 s2 r2 h2 hstem row hrow row2 hrow2
    rw [h1 row hrow, df_image_id path2 img2 s2 r2 h2 row2 hrow2, hstem]

/-- Witness for C10: a concrete run whose path has a directory and an
extension; the stem is the bare file name. -/
theorem claim_C10_witness :
    pathStem "plates/img_007.tif" = "img_007" ∧
    ∃ r, process_image "plates/img_007.tif" imgConst 1 = .ok r ∧
      ∀ row ∈ r.df, row.image_id = pathStem "plates/img_007.tif" :=
  ⟨by decide,
   ⟨_, process_image_eq "plates/img_007.tif" imgConst 1 (by decide),
    (claim_C10 "plates/img_007.tif" imgConst 1 _
      (process_image_eq "plates/img_007.tif" imgConst 1 (by decide))).1⟩⟩

end NuclearFluoro
